import Mathlib

/-!
Shallow embedding of the bounded FIFO message queue of `claudebot-mcp`
(source file: the `queue` package, `src/unnamed/part_003`), together with
proofs of its spec-level properties.

Modelling conventions:
* Go slices of fixed length become Lean `List`s; `s[i]` becomes `l.getD i default`
  and `s[i] = v` becomes `l.set i v` (both are no-ops past the end of the list,
  which never happens on the paths exercised here because the backing slice is
  allocated with length `maxSize`).
* Go `int` becomes `Int` where sign matters (the `limit` argument, the
  `WithMaxSize` option argument) and `Nat` for the always-nonnegative
  structure fields `head`, `count`, `maxSize`.
* `time.Time` is modelled as `Nat` (its value is never inspected by the queue).
* The mutex and the `notify` channel carry no data; sequential state passing
  models the lock-protected state. A method that mutates its receiver returns
  the new state.
-/

namespace ClaudebotMCP

/-- `QueuedMessage` (part_003 lines 13-22): a single captured Discord message. -/
structure QueuedMessage where
  ID : String
  ChannelID : String
  ChannelName : String
  AuthorID : String
  AuthorUsername : String
  Content : String
  Timestamp : Nat
  MessageReference : String
deriving DecidableEq, Inhabited

/-- `Queue` (part_003 lines 48-55): ring buffer state guarded by the mutex.
The `notify` channel is omitted (it carries no data; see the module comment). -/
structure Queue where
  buf : List QueuedMessage
  head : Nat
  count : Nat
  maxSize : Nat
deriving DecidableEq

/-- `Option` (part_003 line 31): a functional option for configuring a `Queue`. -/
def Option : Type := Queue → Queue

/-- `WithMaxSize` (part_003 lines 36-42): sets `maxSize` when the argument is
positive, otherwise leaves the default in place. -/
def WithMaxSize (n : Int) : Option := fun q =>
  if 0 < n then { q with maxSize := n.toNat } else q

/-- `New` (part_003 lines 59-68): default `maxSize` 1000, options applied in
order, then the backing slice is allocated with length `maxSize` (all zero
values). -/
def New (opts : List Option) : Queue :=
  let q : Queue := { buf := [], head := 0, count := 0, maxSize := 1000 }
  let q := opts.foldl (fun q opt => opt q) q
  { q with buf := List.replicate q.maxSize default }

/-- `Queue.Enqueue` (part_003 lines 76-93): when full, drop the oldest entry by
advancing `head`; then write at the tail slot `(head + count) % maxSize` and
bump `count`. (The broadcast on `notify` has no effect on the data state.) -/
def Queue.Enqueue (q : Queue) (msg : QueuedMessage) : Queue :=
  let q :=
    if q.count = q.maxSize then
      { q with head := (q.head + 1) % q.maxSize, count := q.count - 1 }
    else q
  let tail := (q.head + q.count) % q.maxSize
  { q with buf := q.buf.set tail msg, count := q.count + 1 }

/-- The live entries of the queue, oldest first: the slots
`head, head+1, …, head+count-1 (mod maxSize)` of the backing buffer. This is
exactly the sequence of reads the drain loops in `Queue.poll` perform. -/
def Queue.live (q : Queue) : List QueuedMessage :=
  (List.range q.count).map (fun i => q.buf.getD ((q.head + i) % q.maxSize) default)

/-- The fast (unfiltered) drain loop of `Queue.poll` (part_003 lines 110-115):
visit the given buffer indices in order; at each one read the current buffer
into the output and zero the slot. Returns the collected output and the final
buffer. -/
def collectAt : List QueuedMessage → List Nat → List QueuedMessage × List QueuedMessage
  | buf, [] => ([], buf)
  | buf, idx :: rest =>
    let msg := buf.getD idx default
    let r := collectAt (buf.set idx default) rest
    (msg :: r.1, r.2)

/-- The filtered drain loop of `Queue.poll` (part_003 lines 126-133): scan the
messages in order, collecting a message when the limit has not been reached
(`limit ≤ 0` means no cap) and its `ChannelID` or `ChannelName` equals the
filter, otherwise keeping it. `out` and `kept` are the accumulators. -/
def splitDrain (channelFilter : String) (limit : Int) :
    List QueuedMessage → List QueuedMessage → List QueuedMessage →
    List QueuedMessage × List QueuedMessage
  | [], out, kept => (out, kept)
  | msg :: rest, out, kept =>
    if (limit ≤ 0 ∨ (out.length : Int) < limit) ∧
        (msg.ChannelID = channelFilter ∨ msg.ChannelName = channelFilter) then
      splitDrain channelFilter limit rest (out ++ [msg]) kept
    else
      splitDrain channelFilter limit rest out (kept ++ [msg])

/-- The trailing-zero loop of the filtered drain (part_003 lines 140-142):
set each of the listed buffer slots to the zero value. -/
def zeroAt : List QueuedMessage → List Nat → List QueuedMessage
  | buf, [] => buf
  | buf, idx :: rest => zeroAt (buf.set idx default) rest

/-- The entry count the fast path of `Queue.poll` drains (part_003 lines
105-108): `n := q.count; if limit > 0 && n > limit { n = limit }`. -/
def Queue.fastN (q : Queue) (limit : Int) : Nat :=
  if 0 < limit ∧ limit < (q.count : Int) then limit.toNat else q.count

/-- `Queue.poll` (part_003 lines 99-145), the lock-held drain. Empty queue:
return `nil`. Empty filter: collect `fastN` entries from the head, zeroing each
drained slot, and advance `head`. Non-empty filter: partition the live entries
into collected and kept (`splitDrain`), rewrite the buffer with
`copy(q.buf, kept)` — modelled as `kept.take q.buf.length ++ q.buf.drop
kept.length`, which overwrites the first `min (kept.length) (q.buf.length)`
slots and keeps the rest — zero the slots from `kept.length` to `maxSize`, and
reset `head` to 0. -/
def Queue.poll (q : Queue) (channelFilter : String) (limit : Int) :
    List QueuedMessage × Queue :=
  if q.count = 0 then ([], q)
  else if channelFilter = "" then
    let n : Nat := q.fastN limit
    let r := collectAt q.buf ((List.range n).map (fun i => (q.head + i) % q.maxSize))
    (r.1, { q with buf := r.2, head := (q.head + n) % q.maxSize, count := q.count - n })
  else
    let r := splitDrain channelFilter limit q.live [] []
    let kept := r.2
    let buf := kept.take q.buf.length ++ q.buf.drop kept.length
    let buf := zeroAt buf (List.range' kept.length (q.maxSize - kept.length))
    (r.1, { q with buf := buf, head := 0, count := kept.length })

/-- Sequential model of `Queue.Poll` (part_003 lines 160-193) invoked with a
cancellation context whose `Done` channel is already closed when the call is
made: the immediate `poll` attempt under the lock runs first and its result is
returned when non-empty; otherwise the `select` finds `ctx.Done()` ready (the
fresh timer is not) and returns `nil` at once, with the state mutation of the
failed drain retained. -/
def Queue.PollCancelled (q : Queue) (limit : Int) (channelFilter : String) :
    List QueuedMessage × Queue :=
  let r := q.poll channelFilter limit
  if 0 < r.1.length then r else ([], r.2)

/-- `Queue.Len` (part_003 lines 196-200): the current number of live entries. -/
def Queue.Len (q : Queue) : Nat := q.count

/-- `Queue.EnqueueAll`: fold `Enqueue` over a list of messages, in order. -/
def Queue.EnqueueAll (q : Queue) (msgs : List QueuedMessage) : Queue :=
  msgs.foldl Queue.Enqueue q

/-- The code's channel-match predicate (part_003 line 129) as a Boolean:
the entry's `ChannelID` or `ChannelName` equals the filter. -/
def chanMatch (channelFilter : String) (m : QueuedMessage) : Bool :=
  m.ChannelID == channelFilter || m.ChannelName == channelFilter

/-- Spec-level qualification predicate: with an empty filter every entry
qualifies; with a non-empty filter an entry qualifies exactly when its
`ChannelID` or its `ChannelName` equals the filter. -/
def matchesFilter (channelFilter : String) (m : QueuedMessage) : Bool :=
  channelFilter == "" || chanMatch channelFilter m

/-- Slot `i` is inside the live window `head … head+count-1 (mod maxSize)`. -/
def Queue.InWindow (q : Queue) (i : Nat) : Prop :=
  ∃ j, j < q.count ∧ (q.head + j) % q.maxSize = i

instance (q : Queue) (i : Nat) : Decidable (q.InWindow i) :=
  decidable_of_iff
    ((List.range q.count).any (fun j => (q.head + j) % q.maxSize == i) = true)
    (by simp [Queue.InWindow, List.any_eq_true, List.mem_range])

/-- Structural invariant of the ring buffer: the backing buffer has length
`maxSize`, `count ≤ maxSize`, `head` is a valid index, and every slot outside
the live window holds the zero value (so the live entries occupy exactly the
window slots). -/
def Queue.Inv (q : Queue) : Prop :=
  q.buf.length = q.maxSize ∧ q.count ≤ q.maxSize ∧ q.head < q.maxSize ∧
    ∀ i, i < q.maxSize → ¬ q.InWindow i → q.buf.getD i default = default

instance (q : Queue) : Decidable q.Inv := by
  unfold Queue.Inv
  infer_instance

/-- A message with the given content and all other fields zero. -/
def cMsg (content : String) : QueuedMessage :=
  { (default : QueuedMessage) with Content := content }

/-- A message with the given channel name and content, other fields zero. -/
def chMsg (channel content : String) : QueuedMessage :=
  { (default : QueuedMessage) with ChannelName := channel, Content := content }

/-- One sequential operation against the queue: an `Enqueue` of a message or a
drain (the data part of a `Poll` call). -/
inductive QOp where
  | enq : QueuedMessage → QOp
  | drain : String → Int → QOp

/-- Run a list of operations sequentially from state `q`, collecting every
drain result (in order) together with the final state. -/
def runOps : Queue → List QOp → List (List QueuedMessage) × Queue
  | q, [] => ([], q)
  | q, QOp.enq m :: rest => runOps (q.Enqueue m) rest
  | q, QOp.drain f l :: rest =>
    let r := q.poll f l
    let s := runOps r.2 rest
    (r.1 :: s.1, s.2)

/-- The messages enqueued by a list of operations, in order. -/
def enqueuedOf (ops : List QOp) : List QueuedMessage :=
  ops.filterMap (fun op => match op with | QOp.enq m => some m | QOp.drain _ _ => none)

/-- How many times message `x` is delivered across a list of drain results. -/
def emitted (x : QueuedMessage) (outs : List (List QueuedMessage)) : Nat :=
  (outs.map (fun out => out.count x)).sum

/-! ### Generic list and modular-index lemmas -/

theorem getD_set_of_ne {α : Type} (l : List α) (i j : Nat) (a d : α) (h : i ≠ j) :
    (l.set i a).getD j d = l.getD j d := by
  simp [List.getD_eq_getElem?_getD, List.getElem?_set_ne h]

theorem getD_set_self {α : Type} (l : List α) (i : Nat) (a d : α) (h : i < l.length) :
    (l.set i a).getD i d = a := by
  simp [List.getD_eq_getElem?_getD, List.getElem?_set_self h]

theorem getD_of_length_le {α : Type} (l : List α) (i : Nat) (d : α) (h : l.length ≤ i) :
    l.getD i d = d := by
  simp [List.getD_eq_getElem?_getD, List.getElem?_eq_none h]

theorem map_getD_range {α : Type} (l : List α) (d : α) :
    (List.range l.length).map (fun i => l.getD i d) = l := by
  apply List.ext_getElem (by simp)
  intro i h1 h2
  simp [List.getD_eq_getElem?_getD, List.getElem?_eq_getElem h2]

/-- Distinct offsets below `m` land on distinct ring slots. -/
theorem window_inj {m head i j : Nat} (hi : i < m) (hj : j < m)
    (h : (head + i) % m = (head + j) % m) : i = j := by
  have h2 : i ≡ j [MOD m] := Nat.ModEq.add_left_cancel (Nat.ModEq.refl head) h
  have h3 : i % m = j % m := h2
  rwa [Nat.mod_eq_of_lt hi, Nat.mod_eq_of_lt hj] at h3

/-- When the window is the whole ring, every slot is covered. -/
theorem window_cover {m : Nat} (head i : Nat) (hh : head < m) (hi : i < m) :
    ∃ j, j < m ∧ (head + j) % m = i := by
  refine ⟨(i + m - head) % m, Nat.mod_lt _ (by omega), ?_⟩
  rw [Nat.add_mod_mod, Nat.add_sub_cancel' (by omega : head ≤ i + m),
    Nat.add_mod_right, Nat.mod_eq_of_lt hi]

theorem live_length (q : Queue) : q.live.length = q.count := by
  simp [Queue.live]

/-! ### Characterization of the drain loops -/

theorem collectAt_length (buf : List QueuedMessage) (idxs : List Nat) :
    (collectAt buf idxs).2.length = buf.length := by
  induction idxs generalizing buf with
  | nil => rfl
  | cons i rest ih => simp [collectAt, ih]

theorem collectAt_out (buf : List QueuedMessage) (idxs : List Nat)
    (hnd : idxs.Nodup) :
    (collectAt buf idxs).1 = idxs.map (fun i => buf.getD i default) := by
  induction idxs generalizing buf with
  | nil => rfl
  | cons i rest ih =>
    have hnm : i ∉ rest := (List.nodup_cons.mp hnd).1
    have hrest : rest.Nodup := (List.nodup_cons.mp hnd).2
    simp only [collectAt, List.map_cons]
    rw [ih _ hrest]
    congr 1
    apply List.map_congr_left
    intro a ha
    exact getD_set_of_ne _ _ _ _ _ (fun h => hnm (h ▸ ha))

theorem collectAt_buf_getD (buf : List QueuedMessage) (idxs : List Nat) (k : Nat) :
    (collectAt buf idxs).2.getD k default
      = if k ∈ idxs then default else buf.getD k default := by
  induction idxs generalizing buf with
  | nil => simp [collectAt]
  | cons i rest ih =>
    simp only [collectAt]
    rw [ih]
    by_cases hkr : k ∈ rest
    · simp [hkr]
    · by_cases hki : k = i
      · subst hki
        simp only [hkr, if_false, List.mem_cons, true_or, if_true]
        by_cases hlen : k < buf.length
        · exact getD_set_self _ _ _ _ hlen
        · rw [getD_of_length_le _ _ _ (by simpa using Nat.le_of_not_lt hlen)]
      · have : k ∉ i :: rest := by simp [hki, hkr]
        simp only [hkr, if_false, this, if_false]
        exact getD_set_of_ne _ _ _ _ _ (fun h => hki h.symm)

theorem zeroAt_length (buf : List QueuedMessage) (idxs : List Nat) :
    (zeroAt buf idxs).length = buf.length := by
  induction idxs generalizing buf with
  | nil => rfl
  | cons i rest ih => simp [zeroAt, ih]

theorem zeroAt_getD (buf : List QueuedMessage) (idxs : List Nat) (k : Nat) :
    (zeroAt buf idxs).getD k default
      = if k ∈ idxs then default else buf.getD k default := by
  induction idxs generalizing buf with
  | nil => simp [zeroAt]
  | cons i rest ih =>
    simp only [zeroAt]
    rw [ih]
    by_cases hkr : k ∈ rest
    · simp [hkr]
    · by_cases hki : k = i
      · subst hki
        simp only [hkr, if_false, List.mem_cons, true_or, if_true]
        by_cases hlen : k < buf.length
        · exact getD_set_self _ _ _ _ hlen
        · rw [getD_of_length_le _ _ _ (by simpa using Nat.le_of_not_lt hlen)]
      · have : k ∉ i :: rest := by simp [hki, hkr]
        simp only [hkr, if_false, this, if_false]
        exact getD_set_of_ne _ _ _ _ _ (fun h => hki h.symm)

/-! ### Characterization of the filtered split -/

theorem chanMatch_iff (f : String) (m : QueuedMessage) :
    chanMatch f m = true ↔ (m.ChannelID = f ∨ m.ChannelName = f) := by
  simp [chanMatch]

theorem chanMatch_false_iff (f : String) (m : QueuedMessage) :
    chanMatch f m = false ↔ ¬ (m.ChannelID = f ∨ m.ChannelName = f) := by
  rw [← chanMatch_iff, Bool.eq_false_iff, ne_eq]

theorem matchesFilter_of_ne {f : String} (hf : f ≠ "") :
    matchesFilter f = chanMatch f := by
  funext m
  simp [matchesFilter, hf]

theorem matchesFilter_empty : matchesFilter "" = fun _ => true := by
  funext m
  simp [matchesFilter]

theorem splitDrain_out_of_nonpos (f : String) (L : Int) (hL : L ≤ 0) :
    ∀ (l out kept : List QueuedMessage),
      (splitDrain f L l out kept).1 = out ++ l.filter (chanMatch f) := by
  intro l
  induction l with
  | nil => intro out kept; simp [splitDrain]
  | cons msg rest ih =>
    intro out kept
    simp only [splitDrain]
    by_cases hm : msg.ChannelID = f ∨ msg.ChannelName = f
    · have hb : chanMatch f msg = true := (chanMatch_iff f msg).mpr hm
      rw [if_pos ⟨Or.inl hL, hm⟩, ih (out ++ [msg]) kept]
      simp [List.filter_cons, hb]
    · have hb : chanMatch f msg = false := (chanMatch_false_iff f msg).mpr hm
      rw [if_neg (fun h => hm h.2), ih out (kept ++ [msg])]
      simp [List.filter_cons, hb]

theorem splitDrain_out_of_pos (f : String) (L : Int) (hL : 0 < L) :
    ∀ (l out kept : List QueuedMessage),
      (splitDrain f L l out kept).1
        = out ++ (l.filter (chanMatch f)).take (L.toNat - out.length) := by
  intro l
  induction l with
  | nil => intro out kept; simp [splitDrain]
  | cons msg rest ih =>
    intro out kept
    simp only [splitDrain]
    by_cases hm : msg.ChannelID = f ∨ msg.ChannelName = f
    · have hb : chanMatch f msg = true := (chanMatch_iff f msg).mpr hm
      by_cases hlt : (out.length : Int) < L
      · rw [if_pos ⟨Or.inr hlt, hm⟩, ih (out ++ [msg]) kept]
        have h1 : L.toNat - out.length = (L.toNat - (out.length + 1)) + 1 := by omega
        simp only [List.filter_cons, hb, if_true, List.length_append, List.length_cons,
          List.length_nil, Nat.zero_add, h1, List.take_succ_cons, List.append_assoc,
          List.cons_append, List.nil_append]
      · rw [if_neg (fun h => h.1.elim (fun h1 => absurd h1 (not_le.mpr hL)) hlt),
          ih out (kept ++ [msg])]
        have h0 : L.toNat - out.length = 0 := by omega
        simp [List.filter_cons, hb, h0]
    · have hb : chanMatch f msg = false := (chanMatch_false_iff f msg).mpr hm
      rw [if_neg (fun h => hm h.2), ih out (kept ++ [msg])]
      simp [List.filter_cons, hb]

theorem splitDrain_kept_suffix (f : String) (L : Int) :
    ∀ (l out kept : List QueuedMessage),
      ∃ k2, (splitDrain f L l out kept).2 = kept ++ k2 ∧ k2.Sublist l := by
  intro l
  induction l with
  | nil => intro out kept; exact ⟨[], by simp [splitDrain], List.nil_sublist _⟩
  | cons msg rest ih =>
    intro out kept
    simp only [splitDrain]
    split
    · obtain ⟨k2, h1, h2⟩ := ih (out ++ [msg]) kept
      exact ⟨k2, h1, h2.cons _⟩
    · obtain ⟨k2, h1, h2⟩ := ih out (kept ++ [msg])
      refine ⟨msg :: k2, ?_, h2.cons₂ _⟩
      rw [h1, List.append_assoc, List.singleton_append]

theorem splitDrain_count (f : String) (L : Int) (x : QueuedMessage) :
    ∀ (l out kept : List QueuedMessage),
      ((splitDrain f L l out kept).1).count x + ((splitDrain f L l out kept).2).count x
        = out.count x + kept.count x + l.count x := by
  intro l
  induction l with
  | nil => intro out kept; simp [splitDrain]
  | cons msg rest ih =>
    intro out kept
    simp only [splitDrain]
    split
    · rw [ih (out ++ [msg]) kept]
      simp only [List.count_append, List.count_cons]
      by_cases hx : x = msg <;> simp [hx] <;> omega
    · rw [ih out (kept ++ [msg])]
      simp only [List.count_append, List.count_cons]
      by_cases hx : x = msg <;> simp [hx] <;> omega

theorem splitDrain_length (f : String) (L : Int) :
    ∀ (l out kept : List QueuedMessage),
      ((splitDrain f L l out kept).1).length + ((splitDrain f L l out kept).2).length
        = out.length + kept.length + l.length := by
  intro l
  induction l with
  | nil => intro out kept; simp [splitDrain]
  | cons msg rest ih =>
    intro out kept
    simp only [splitDrain]
    split
    · rw [ih (out ++ [msg]) kept]; simp; omega
    · rw [ih out (kept ++ [msg])]; simp; omega

theorem splitDrain_kept_of_nonpos (f : String) (L : Int) (hL : L ≤ 0) :
    ∀ (l out kept : List QueuedMessage),
      (splitDrain f L l out kept).2 = kept ++ l.filter (fun m => ! chanMatch f m) := by
  intro l
  induction l with
  | nil => intro out kept; simp [splitDrain]
  | cons msg rest ih =>
    intro out kept
    simp only [splitDrain]
    by_cases hm : msg.ChannelID = f ∨ msg.ChannelName = f
    · have hb : chanMatch f msg = true := (chanMatch_iff f msg).mpr hm
      rw [if_pos ⟨Or.inl hL, hm⟩, ih (out ++ [msg]) kept]
      simp [List.filter_cons, hb]
    · have hb : chanMatch f msg = false := (chanMatch_false_iff f msg).mpr hm
      rw [if_neg (fun h => hm h.2), ih out (kept ++ [msg])]
      simp [List.filter_cons, hb]

theorem splitDrain_kept_of_le (f : String) (L : Int) (hL : 0 < L) :
    ∀ (l out kept : List QueuedMessage),
      (l.filter (chanMatch f)).length + out.length ≤ L.toNat →
      (splitDrain f L l out kept).2 = kept ++ l.filter (fun m => ! chanMatch f m) := by
  intro l
  induction l with
  | nil => intro out kept _; simp [splitDrain]
  | cons msg rest ih =>
    intro out kept h
    simp only [splitDrain]
    by_cases hm : msg.ChannelID = f ∨ msg.ChannelName = f
    · have hb : chanMatch f msg = true := (chanMatch_iff f msg).mpr hm
      have h' : (rest.filter (chanMatch f)).length + (out.length + 1) ≤ L.toNat := by
        rw [List.filter_cons, hb] at h
        simp at h
        omega
      have hlt : (out.length : Int) < L := by omega
      rw [if_pos ⟨Or.inr hlt, hm⟩, ih (out ++ [msg]) kept (by simpa using h')]
      simp [List.filter_cons, hb]
    · have hb : chanMatch f msg = false := (chanMatch_false_iff f msg).mpr hm
      have h' : (rest.filter (chanMatch f)).length + out.length ≤ L.toNat := by
        rw [List.filter_cons, hb] at h
        simpa using h
      rw [if_neg (fun hc => hm hc.2), ih out (kept ++ [msg]) h']
      simp [List.filter_cons, hb]

/-! ### Enqueue characterization -/

theorem fastN_le (q : Queue) (L : Int) : q.fastN L ≤ q.count := by
  unfold Queue.fastN
  split <;> omega

theorem maxSize_pos (q : Queue) (hinv : q.Inv) : 0 < q.maxSize :=
  lt_of_le_of_lt (Nat.zero_le _) hinv.2.2.1

theorem Enqueue_eq_of_full (q : Queue) (msg : QueuedMessage) (hfull : q.count = q.maxSize) :
    q.Enqueue msg =
      { buf := q.buf.set (((q.head + 1) % q.maxSize + (q.count - 1)) % q.maxSize) msg,
        head := (q.head + 1) % q.maxSize, count := q.count - 1 + 1,
        maxSize := q.maxSize } := by
  simp only [Queue.Enqueue, if_pos hfull]

theorem Enqueue_eq_of_not_full (q : Queue) (msg : QueuedMessage)
    (hfull : ¬ q.count = q.maxSize) :
    q.Enqueue msg =
      { buf := q.buf.set ((q.head + q.count) % q.maxSize) msg,
        head := q.head, count := q.count + 1, maxSize := q.maxSize } := by
  simp only [Queue.Enqueue, if_neg hfull]

theorem Enqueue_spec (q : Queue) (msg : QueuedMessage) (hinv : q.Inv) :
    (q.Enqueue msg).live = (if q.count = q.maxSize then q.live.drop 1 else q.live) ++ [msg]
    ∧ (q.Enqueue msg).count = (if q.count = q.maxSize then q.maxSize else q.count + 1)
    ∧ (q.Enqueue msg).maxSize = q.maxSize
    ∧ (q.Enqueue msg).Inv := by
  obtain ⟨hlen, hcnt, hhead, hzero⟩ := hinv
  have hm : 0 < q.maxSize := lt_of_le_of_lt (Nat.zero_le _) hhead
  by_cases hfull : q.count = q.maxSize
  · -- full: evict the oldest entry, then write at the freed slot
    rw [Enqueue_eq_of_full q msg hfull, if_pos hfull, if_pos hfull]
    have hc1 : q.count - 1 + 1 = q.maxSize := by omega
    have hh1 : (q.head + 1) % q.maxSize < q.maxSize := Nat.mod_lt _ hm
    have hT : ((q.head + 1) % q.maxSize + (q.count - 1)) % q.maxSize < q.buf.length := by
      rw [hlen]
      exact Nat.mod_lt _ hm
    refine ⟨?_, by show q.count - 1 + 1 = q.maxSize; omega, rfl, ?_⟩
    · apply List.ext_getElem
      · simp [Queue.live]
      · intro k h1 h2
        have hk : k < q.maxSize := by
          simp only [Queue.live, List.length_map, List.length_range] at h1
          omega
        simp only [Queue.live, List.getElem_map, List.getElem_range]
        by_cases hkl : k < q.count - 1
        · rw [List.getElem_append_left (by simp; omega)]
          rw [getD_set_of_ne _ _ _ _ _ (fun hcontra => by
            have := window_inj (m := q.maxSize) (by omega : q.count - 1 < q.maxSize) hk hcontra
            omega)]
          rw [List.getElem_drop]
          simp only [List.getElem_map, List.getElem_range]
          have hidx2 : ((q.head + 1) % q.maxSize + k) % q.maxSize
              = (q.head + (1 + k)) % q.maxSize := by
            rw [Nat.mod_add_mod, Nat.add_assoc]
          rw [hidx2]
        · have hk1 : k = q.count - 1 := by omega
          rw [List.getElem_append_right (by simp; omega)]
          rw [List.getElem_singleton]
          have hidx : ((q.head + 1) % q.maxSize + k) % q.maxSize
              = ((q.head + 1) % q.maxSize + (q.count - 1)) % q.maxSize := by rw [hk1]
          rw [hidx, getD_set_self _ _ _ _ hT]
    · refine ⟨by simpa using hlen, by show q.count - 1 + 1 ≤ q.maxSize; omega,
        by show (q.head + 1) % q.maxSize < q.maxSize; exact hh1, ?_⟩
      intro i hi hnw
      exfalso
      apply hnw
      obtain ⟨j, hj, hje⟩ := window_cover ((q.head + 1) % q.maxSize) i hh1 hi
      exact ⟨j, by show j < q.count - 1 + 1; omega, hje⟩
  · -- not full: write at the tail slot
    rw [Enqueue_eq_of_not_full q msg hfull, if_neg hfull, if_neg hfull]
    have hcountlt : q.count < q.maxSize := lt_of_le_of_ne hcnt hfull
    refine ⟨?_, rfl, rfl, ?_⟩
    · simp only [Queue.live]
      rw [List.range_succ, List.map_append]
      congr 1
      · apply List.map_congr_left
        intro i hi
        rw [List.mem_range] at hi
        apply getD_set_of_ne
        intro hcontra
        have := window_inj (m := q.maxSize) hcountlt (lt_trans hi hcountlt) hcontra
        omega
      · simp only [List.map_cons, List.map_nil]
        congr 1
        apply getD_set_self
        rw [hlen]
        exact Nat.mod_lt _ hm
    · refine ⟨by simpa using hlen, by show q.count + 1 ≤ q.maxSize; omega,
        by show q.head < q.maxSize; exact hhead, ?_⟩
      intro i hi hnw
      have hi' : i < q.maxSize := hi
      have hne : (q.head + q.count) % q.maxSize ≠ i := by
        intro hcontra
        exact hnw ⟨q.count, by show q.count < q.count + 1; omega, hcontra⟩
      have hnw' : ¬ q.InWindow i := by
        intro hw
        obtain ⟨j, hj, hje⟩ := hw
        exact hnw ⟨j, by show j < q.count + 1; omega, hje⟩
      exact (getD_set_of_ne _ _ _ _ _ hne).trans (hzero i hi' hnw')

/-! ### Drain characterization -/

theorem poll_eq_zero (q : Queue) (f : String) (L : Int) (h : q.count = 0) :
    q.poll f L = ([], q) := by
  simp [Queue.poll, h]

theorem poll_eq_unfiltered (q : Queue) (L : Int) (h : ¬ q.count = 0) :
    q.poll "" L =
      ((collectAt q.buf ((List.range (q.fastN L)).map (fun i => (q.head + i) % q.maxSize))).1,
       { buf := (collectAt q.buf
            ((List.range (q.fastN L)).map (fun i => (q.head + i) % q.maxSize))).2,
         head := (q.head + q.fastN L) % q.maxSize, count := q.count - q.fastN L,
         maxSize := q.maxSize }) := by
  simp only [Queue.poll, if_neg h, if_true]

theorem poll_eq_filtered (q : Queue) (f : String) (L : Int) (h : ¬ q.count = 0)
    (hf : ¬ f = "") :
    q.poll f L =
      ((splitDrain f L q.live [] []).1,
       { buf := zeroAt ((splitDrain f L q.live [] []).2.take q.buf.length
                  ++ q.buf.drop (splitDrain f L q.live [] []).2.length)
                  (List.range' (splitDrain f L q.live [] []).2.length
                    (q.maxSize - (splitDrain f L q.live [] []).2.length)),
         head := 0, count := (splitDrain f L q.live [] []).2.length,
         maxSize := q.maxSize }) := by
  simp only [Queue.poll, if_neg h, if_neg hf]

theorem poll_unfiltered_spec (q : Queue) (L : Int) (hinv : q.Inv) (hne : q.count ≠ 0) :
    (q.poll "" L).1 = q.live.take (q.fastN L)
    ∧ (q.poll "" L).2.live = q.live.drop (q.fastN L)
    ∧ (q.poll "" L).2.count = q.count - q.fastN L
    ∧ (q.poll "" L).2.maxSize = q.maxSize
    ∧ (q.poll "" L).2.Inv := by
  obtain ⟨hlen, hcnt, hhead, hzero⟩ := hinv
  have hm : 0 < q.maxSize := lt_of_le_of_lt (Nat.zero_le _) hhead
  rw [poll_eq_unfiltered q L hne]
  set n := q.fastN L with hn
  have hnle : n ≤ q.count := fastN_le q L
  set idxs := (List.range n).map (fun i => (q.head + i) % q.maxSize) with hidxs
  have hnd : idxs.Nodup := by
    rw [hidxs]
    refine List.Nodup.map_on ?_ (List.nodup_range n)
    intro i hi j hj hij
    rw [List.mem_range] at hi hj
    exact window_inj (m := q.maxSize) (by omega) (by omega) hij
  have hout : (collectAt q.buf idxs).1 = q.live.take n := by
    rw [collectAt_out _ _ hnd, hidxs, List.map_map]
    unfold Queue.live
    rw [← List.map_take, List.take_range, Nat.min_eq_left hnle]
    rfl
  have hlive2 : ({ buf := (collectAt q.buf idxs).2, head := (q.head + n) % q.maxSize,
                   count := q.count - n, maxSize := q.maxSize } : Queue).live
      = q.live.drop n := by
    apply List.ext_getElem
    · simp [Queue.live]
    · intro k h1 h2
      have hk : k < q.count - n := by
        simpa [Queue.live] using h1
      simp only [Queue.live, List.getElem_map, List.getElem_range]
      have hidx2 : ((q.head + n) % q.maxSize + k) % q.maxSize
          = (q.head + (n + k)) % q.maxSize := by
        rw [Nat.mod_add_mod, Nat.add_assoc]
      rw [hidx2, collectAt_buf_getD]
      have hmem : (q.head + (n + k)) % q.maxSize ∉ idxs := by
        rw [hidxs]
        intro hcontra
        simp only [List.mem_map, List.mem_range] at hcontra
        obtain ⟨i, hi, hie⟩ := hcontra
        have := window_inj (m := q.maxSize) (by omega : i < q.maxSize)
          (by omega : n + k < q.maxSize) hie
        omega
      rw [if_neg hmem, List.getElem_drop]
      simp only [Queue.live, List.getElem_map, List.getElem_range]
  have hinv2 : ({ buf := (collectAt q.buf idxs).2, head := (q.head + n) % q.maxSize,
                  count := q.count - n, maxSize := q.maxSize } : Queue).Inv := by
    refine ⟨?_, ?_, ?_, ?_⟩
    · show (collectAt q.buf idxs).2.length = q.maxSize
      rw [collectAt_length, hlen]
    · show q.count - n ≤ q.maxSize
      omega
    · show (q.head + n) % q.maxSize < q.maxSize
      exact Nat.mod_lt _ hm
    · intro i hi hnw
      have hi' : i < q.maxSize := hi
      show (collectAt q.buf idxs).2.getD i default = default
      rw [collectAt_buf_getD]
      by_cases hmem : i ∈ idxs
      · rw [if_pos hmem]
      · rw [if_neg hmem]
        apply hzero i hi'
        rintro ⟨j, hj, hje⟩
        by_cases hjn : j < n
        · apply hmem
          rw [hidxs]
          exact List.mem_map.mpr ⟨j, List.mem_range.mpr hjn, hje⟩
        · apply hnw
          refine ⟨j - n, by show j - n < q.count - n; omega, ?_⟩
          show ((q.head + n) % q.maxSize + (j - n)) % q.maxSize = i
          rw [Nat.mod_add_mod, show q.head + n + (j - n) = q.head + j by omega]
          exact hje
  exact ⟨hout, hlive2, rfl, rfl, hinv2⟩

theorem ext_getD {α : Type} (l1 l2 : List α) (d : α) (hl : l1.length = l2.length)
    (h : ∀ k, k < l1.length → l1.getD k d = l2.getD k d) : l1 = l2 := by
  apply List.ext_getElem hl
  intro i h1 h2
  have h3 := h i h1
  rwa [List.getD_eq_getElem?_getD, List.getD_eq_getElem?_getD,
    List.getElem?_eq_getElem h1, List.getElem?_eq_getElem h2, Option.getD_some,
    Option.getD_some] at h3

theorem getD_append_left {α : Type} (l1 l2 : List α) (k : Nat) (d : α)
    (h : k < l1.length) : (l1 ++ l2).getD k d = l1.getD k d := by
  rw [List.getD_eq_getElem?_getD, List.getD_eq_getElem?_getD, List.getElem?_append_left h]

theorem getD_append_right {α : Type} (l1 l2 : List α) (k : Nat) (d : α)
    (h : l1.length ≤ k) : (l1 ++ l2).getD k d = l2.getD (k - l1.length) d := by
  rw [List.getD_eq_getElem?_getD, List.getD_eq_getElem?_getD, List.getElem?_append_right h]

theorem getD_replicate {α : Type} (n k : Nat) (a d : α) :
    (List.replicate n a).getD k d = if k < n then a else d := by
  rw [List.getD_eq_getElem?_getD, List.getElem?_replicate]
  split <;> rfl

theorem mem_range'_iff (s n m : Nat) : m ∈ List.range' s n ↔ s ≤ m ∧ m < s + n := by
  rw [List.mem_range']
  constructor
  · rintro ⟨i, hi, rfl⟩
    omega
  · intro h
    exact ⟨m - s, by omega, by omega⟩

theorem poll_filtered_spec (q : Queue) (f : String) (L : Int) (hinv : q.Inv)
    (hne : q.count ≠ 0) (hf : f ≠ "") :
    (q.poll f L).1 = (splitDrain f L q.live [] []).1
    ∧ (q.poll f L).2.live = (splitDrain f L q.live [] []).2
    ∧ (q.poll f L).2.head = 0
    ∧ (q.poll f L).2.count = (splitDrain f L q.live [] []).2.length
    ∧ (q.poll f L).2.maxSize = q.maxSize
    ∧ (q.poll f L).2.buf = (splitDrain f L q.live [] []).2
        ++ List.replicate (q.maxSize - (splitDrain f L q.live [] []).2.length) default
    ∧ (q.poll f L).2.Inv := by
  obtain ⟨hlen, hcnt, hhead, hzero⟩ := hinv
  have hm : 0 < q.maxSize := lt_of_le_of_lt (Nat.zero_le _) hhead
  rw [poll_eq_filtered q f L hne hf]
  set kept := (splitDrain f L q.live [] []).2 with hkept
  have hklen : kept.length ≤ q.count := by
    have h1 := splitDrain_length f L q.live [] []
    have h2 := live_length q
    rw [← hkept] at h1
    simp at h1
    omega
  have hkm : kept.length ≤ q.maxSize := le_trans hklen hcnt
  have hbuf : zeroAt (kept.take q.buf.length ++ q.buf.drop kept.length)
      (List.range' kept.length (q.maxSize - kept.length))
      = kept ++ List.replicate (q.maxSize - kept.length) default := by
    rw [List.take_of_length_le (by omega)]
    apply ext_getD _ _ default
    · rw [zeroAt_length]
      simp
      omega
    · intro k hk
      rw [zeroAt_length] at hk
      simp only [List.length_append, List.length_drop, hlen] at hk
      rw [zeroAt_getD]
      by_cases hkl : k < kept.length
      · rw [if_neg (fun hc => by have := (mem_range'_iff _ _ _).mp hc; omega),
          getD_append_left _ _ _ _ hkl, getD_append_left _ _ _ _ hkl]
      · rw [if_pos ((mem_range'_iff _ _ _).mpr (by omega)),
          getD_append_right _ _ _ _ (by omega), getD_replicate, if_pos (by omega)]
  have hlive2 : ({ buf := kept ++ List.replicate (q.maxSize - kept.length) default,
                   head := 0, count := kept.length, maxSize := q.maxSize } : Queue).live
      = kept := by
    have hcg : ∀ i ∈ List.range kept.length,
        (kept ++ List.replicate (q.maxSize - kept.length) default).getD
            ((0 + i) % q.maxSize) default
          = kept.getD i default := by
      intro i hi
      rw [List.mem_range] at hi
      rw [Nat.zero_add, Nat.mod_eq_of_lt (by omega), getD_append_left _ _ _ _ hi]
    simp only [Queue.live]
    rw [List.map_congr_left hcg, map_getD_range]
  have hinv2 : ({ buf := kept ++ List.replicate (q.maxSize - kept.length) default,
                  head := 0, count := kept.length, maxSize := q.maxSize } : Queue).Inv := by
    refine ⟨?_, ?_, ?_, ?_⟩
    · show (kept ++ List.replicate (q.maxSize - kept.length) default).length = q.maxSize
      simp
      omega
    · show kept.length ≤ q.maxSize
      exact hkm
    · show 0 < q.maxSize
      exact hm
    · intro i hi hnw
      have hi' : i < q.maxSize := hi
      show (kept ++ List.replicate (q.maxSize - kept.length) default).getD i default
        = default
      by_cases hil : i < kept.length
      · exact absurd ⟨i, hil, by rw [Nat.zero_add, Nat.mod_eq_of_lt (by omega)]⟩ hnw
      · rw [getD_append_right _ _ _ _ (by omega), getD_replicate, if_pos (by omega)]
  rw [hbuf]
  exact ⟨rfl, hlive2, rfl, rfl, rfl, rfl, hinv2⟩

/-! ### Construction and derived drain facts -/

theorem New_withMaxSize_eq (C : Nat) (hC : 0 < C) :
    New [WithMaxSize (C : Int)] =
      { buf := List.replicate C default, head := 0, count := 0, maxSize := C } := by
  simp [New, WithMaxSize, hC]

theorem New_inv (C : Nat) (hC : 0 < C) : (New [WithMaxSize (C : Int)]).Inv := by
  rw [New_withMaxSize_eq C hC]
  refine ⟨by simp, by simp, by simpa using hC, ?_⟩
  intro i hi hnw
  show (List.replicate C default).getD i default = default
  rw [getD_replicate]
  split <;> rfl

theorem New_live (C : Nat) (hC : 0 < C) : (New [WithMaxSize (C : Int)]).live = [] := by
  rw [New_withMaxSize_eq C hC]
  rfl

theorem EnqueueAll_spec (msgs : List QueuedMessage) :
    ∀ (q : Queue), q.Inv →
      (q.EnqueueAll msgs).live = (q.live ++ msgs).drop (q.count + msgs.length - q.maxSize)
      ∧ (q.EnqueueAll msgs).maxSize = q.maxSize
      ∧ (q.EnqueueAll msgs).Inv := by
  induction msgs with
  | nil =>
    intro q hinv
    refine ⟨?_, rfl, hinv⟩
    have h0 : q.count + 0 - q.maxSize = 0 := by
      have := hinv.2.1
      omega
    show q.live = _
    rw [List.length_nil, h0, List.append_nil, List.drop_zero]
  | cons m rest ih =>
    intro q hinv
    obtain ⟨hlive, hcount, hmax, hinv'⟩ := Enqueue_spec q m hinv
    have hstep : q.EnqueueAll (m :: rest) = (q.Enqueue m).EnqueueAll rest := rfl
    obtain ⟨ih1, ih2, ih3⟩ := ih (q.Enqueue m) hinv'
    rw [hstep]
    refine ⟨?_, by rw [ih2, hmax], ih3⟩
    rw [ih1, hlive, hcount, hmax]
    have hmpos : 0 < q.maxSize := maxSize_pos q hinv
    by_cases hfull : q.count = q.maxSize
    · rw [if_pos hfull, if_pos hfull]
      have hl : q.live.length = q.maxSize := by rw [live_length q, hfull]
      rw [show q.maxSize + rest.length - q.maxSize = rest.length from by omega]
      have harith : q.count + (m :: rest).length - q.maxSize = rest.length + 1 := by
        simp only [List.length_cons]
        omega
      rw [harith, List.append_assoc, List.singleton_append,
        ← List.drop_append_of_le_length (by omega : 1 ≤ q.live.length),
        List.drop_drop, Nat.add_comm 1 rest.length]
    · rw [if_neg hfull, if_neg hfull]
      have hlt : q.count < q.maxSize := lt_of_le_of_ne hinv.2.1 hfull
      rw [List.append_assoc, List.singleton_append]
      congr 1
      simp only [List.length_cons]
      omega

theorem poll_maxSize (q : Queue) (f : String) (L : Int) (hinv : q.Inv) :
    (q.poll f L).2.maxSize = q.maxSize := by
  by_cases h0 : q.count = 0
  · rw [poll_eq_zero q f L h0]
  · by_cases hf : f = ""
    · subst hf
      exact (poll_unfiltered_spec q L hinv h0).2.2.2.1
    · exact (poll_filtered_spec q f L hinv h0 hf).2.2.2.2.1

theorem poll_inv (q : Queue) (f : String) (L : Int) (hinv : q.Inv) :
    (q.poll f L).2.Inv := by
  by_cases h0 : q.count = 0
  · rw [poll_eq_zero q f L h0]
    exact hinv
  · by_cases hf : f = ""
    · subst hf
      exact (poll_unfiltered_spec q L hinv h0).2.2.2.2
    · exact (poll_filtered_spec q f L hinv h0 hf).2.2.2.2.2.2

theorem poll_out_sublist (q : Queue) (f : String) (L : Int) (hinv : q.Inv) :
    ((q.poll f L).1).Sublist q.live := by
  by_cases h0 : q.count = 0
  · rw [poll_eq_zero q f L h0]
    exact List.nil_sublist _
  · by_cases hf : f = ""
    · subst hf
      rw [(poll_unfiltered_spec q L hinv h0).1]
      exact List.take_sublist _ _
    · rw [(poll_filtered_spec q f L hinv h0 hf).1]
      by_cases hL : L ≤ 0
      · rw [splitDrain_out_of_nonpos f L hL q.live [] [], List.nil_append]
        exact List.filter_sublist _
      · rw [splitDrain_out_of_pos f L (by omega) q.live [] [], List.nil_append]
        exact (List.take_sublist _ _).trans (List.filter_sublist _)

theorem poll_conserve (q : Queue) (f : String) (L : Int) (hinv : q.Inv)
    (x : QueuedMessage) :
    ((q.poll f L).1).count x + ((q.poll f L).2.live).count x = q.live.count x := by
  by_cases h0 : q.count = 0
  · rw [poll_eq_zero q f L h0]
    simp
  · by_cases hf : f = ""
    · subst hf
      obtain ⟨h1, h2, _, _, _⟩ := poll_unfiltered_spec q L hinv h0
      rw [h1, h2, ← List.count_append, List.take_append_drop]
    · obtain ⟨h1, h2, _, _, _, _, _⟩ := poll_filtered_spec q f L hinv h0 hf
      rw [h1, h2]
      have h3 := splitDrain_count f L x q.live [] []
      simpa using h3

theorem poll_len (q : Queue) (f : String) (L : Int) (hinv : q.Inv) :
    ((q.poll f L).1).length + ((q.poll f L).2.live).length = q.live.length := by
  by_cases h0 : q.count = 0
  · rw [poll_eq_zero q f L h0]
    simp
  · by_cases hf : f = ""
    · subst hf
      obtain ⟨h1, h2, _, _, _⟩ := poll_unfiltered_spec q L hinv h0
      rw [h1, h2, ← List.length_append, List.take_append_drop]
    · obtain ⟨h1, h2, _, _, _, _, _⟩ := poll_filtered_spec q f L hinv h0 hf
      rw [h1, h2]
      have h3 := splitDrain_length f L q.live [] []
      simpa using h3

/-! ### Sequential runs of operations -/

theorem runOps_nil (q : Queue) : runOps q [] = ([], q) := rfl

theorem runOps_enq (q : Queue) (m : QueuedMessage) (rest : List QOp) :
    runOps q (QOp.enq m :: rest) = runOps (q.Enqueue m) rest := rfl

theorem runOps_drain (q : Queue) (f : String) (l : Int) (rest : List QOp) :
    runOps q (QOp.drain f l :: rest)
      = ((q.poll f l).1 :: (runOps ((q.poll f l).2) rest).1,
         (runOps ((q.poll f l).2) rest).2) := rfl

theorem enqueuedOf_nil : enqueuedOf [] = [] := rfl

theorem enqueuedOf_enq (m : QueuedMessage) (rest : List QOp) :
    enqueuedOf (QOp.enq m :: rest) = m :: enqueuedOf rest := rfl

theorem enqueuedOf_drain (f : String) (l : Int) (rest : List QOp) :
    enqueuedOf (QOp.drain f l :: rest) = enqueuedOf rest := rfl

theorem emitted_nil (x : QueuedMessage) : emitted x [] = 0 := rfl

theorem emitted_cons (x : QueuedMessage) (out : List QueuedMessage)
    (outs : List (List QueuedMessage)) :
    emitted x (out :: outs) = out.count x + emitted x outs := by
  simp [emitted]

theorem Enqueue_count_le (q : Queue) (m : QueuedMessage) (hinv : q.Inv)
    (x : QueuedMessage) :
    ((q.Enqueue m).live).count x ≤ q.live.count x + List.count x [m] := by
  obtain ⟨hlive, _, _, _⟩ := Enqueue_spec q m hinv
  rw [hlive, List.count_append]
  have hd : ((if q.count = q.maxSize then q.live.drop 1 else q.live)).count x
      ≤ q.live.count x := by
    split
    · exact (List.drop_sublist _ _).count_le x
    · exact le_refl _
  omega

theorem Enqueue_count_eq (q : Queue) (m : QueuedMessage) (hinv : q.Inv)
    (hnf : q.count < q.maxSize) (x : QueuedMessage) :
    ((q.Enqueue m).live).count x = q.live.count x + List.count x [m] := by
  obtain ⟨hlive, _, _, _⟩ := Enqueue_spec q m hinv
  rw [hlive, if_neg (by omega), List.count_append]

theorem runOps_le (ops : List QOp) : ∀ (q : Queue), q.Inv → ∀ (x : QueuedMessage),
    emitted x (runOps q ops).1 + ((runOps q ops).2.live).count x
      ≤ q.live.count x + (enqueuedOf ops).count x := by
  induction ops with
  | nil =>
    intro q hinv x
    simp [runOps_nil, emitted_nil, enqueuedOf_nil]
  | cons op rest ih =>
    intro q hinv x
    cases op with
    | enq m =>
      have h1 := ih (q.Enqueue m) (Enqueue_spec q m hinv).2.2.2 x
      have h2 := Enqueue_count_le q m hinv x
      rw [enqueuedOf_enq, runOps_enq, List.count_cons]
      by_cases hx : x = m
      · subst hx
        simp at h2 ⊢
        omega
      · have hx' : ¬ m = x := fun h => hx h.symm
        simp [hx, hx'] at h2 ⊢
        omega
    | drain f l =>
      have hpoll := poll_conserve q f l hinv x
      have h1 := ih ((q.poll f l).2) (poll_inv q f l hinv) x
      rw [enqueuedOf_drain, runOps_drain]
      dsimp only
      rw [emitted_cons]
      omega

theorem runOps_eq (ops : List QOp) : ∀ (q : Queue), q.Inv →
    q.count + (enqueuedOf ops).length ≤ q.maxSize → ∀ (x : QueuedMessage),
    emitted x (runOps q ops).1 + ((runOps q ops).2.live).count x
      = q.live.count x + (enqueuedOf ops).count x := by
  induction ops with
  | nil =>
    intro q hinv hcap x
    simp [runOps_nil, emitted_nil, enqueuedOf_nil]
  | cons op rest ih =>
    intro q hinv hcap x
    cases op with
    | enq m =>
      rw [enqueuedOf_enq] at hcap
      simp only [List.length_cons] at hcap
      have hlt : q.count < q.maxSize := by omega
      have hq' := Enqueue_spec q m hinv
      have hcap' : (q.Enqueue m).count + (enqueuedOf rest).length
          ≤ (q.Enqueue m).maxSize := by
        rw [hq'.2.1, hq'.2.2.1, if_neg (by omega)]
        omega
      have h1 := ih (q.Enqueue m) hq'.2.2.2 hcap' x
      have h2 := Enqueue_count_eq q m hinv hlt x
      rw [enqueuedOf_enq, runOps_enq, List.count_cons]
      by_cases hx : x = m
      · subst hx
        simp at h2 ⊢
        omega
      · have hx' : ¬ m = x := fun h => hx h.symm
        simp [hx, hx'] at h2 ⊢
        omega
    | drain f l =>
      rw [enqueuedOf_drain] at hcap
      have hpoll := poll_conserve q f l hinv x
      have hcap' : ((q.poll f l).2).count + (enqueuedOf rest).length
          ≤ ((q.poll f l).2).maxSize := by
        rw [poll_maxSize q f l hinv]
        have hlen2 := poll_len q f l hinv
        have hc : ((q.poll f l).2).count = ((q.poll f l).2).live.length :=
          (live_length _).symm
        have hlq : q.live.length = q.count := live_length q
        omega
      have h1 := ih ((q.poll f l).2) (poll_inv q f l hinv) hcap' x
      rw [enqueuedOf_drain, runOps_drain]
      dsimp only
      rw [emitted_cons]
      omega

/-! ### Claim theorems -/

/-- C1: bounded overflow. For a queue constructed with capacity `C`, enqueuing
`C + K` entries (`K > 0`) leaves exactly the last `C` enqueued entries
retrievable, the `K` oldest having been evicted oldest-first; in particular
with capacity 3, after enqueuing "a","b","c","d" an unfiltered drain with
limit 10 returns ["b","c","d"] in order and leaves the store empty. -/
theorem C1_bounded_overflow :
    (∀ (C K : Nat) (L : List QueuedMessage), 0 < C → 0 < K → L.length = C + K →
      ((New [WithMaxSize (C : Int)]).EnqueueAll L).live = L.drop K)
    ∧ (((New [WithMaxSize 3]).EnqueueAll
          [cMsg "a", cMsg "b", cMsg "c", cMsg "d"]).poll "" 10).1
        = [cMsg "b", cMsg "c", cMsg "d"]
    ∧ ((((New [WithMaxSize 3]).EnqueueAll
          [cMsg "a", cMsg "b", cMsg "c", cMsg "d"]).poll "" 10).2).Len = 0 := by
  refine ⟨?_, by decide, by decide⟩
  intro C K L hC hK hlen
  obtain ⟨h1, _, _⟩ := EnqueueAll_spec L (New [WithMaxSize (C : Int)]) (New_inv C hC)
  rw [h1, New_live C hC, List.nil_append, New_withMaxSize_eq C hC]
  dsimp only
  congr 1
  omega

theorem C1_witness :
    ((New [WithMaxSize 2]).EnqueueAll [cMsg "x", cMsg "y", cMsg "z"]).live
      = [cMsg "y", cMsg "z"] :=
  C1_bounded_overflow.1 2 1 [cMsg "x", cMsg "y", cMsg "z"] (by decide) (by decide)
    (by decide)

/-- C3 counterexample: with capacity 1, two Enqueue calls from an empty queue
followed by an unfiltered Poll with limit 10 ≥ 2 return only the last entry,
not the full enqueue order — the eviction policy makes the claim fail when the
number of enqueues exceeds the capacity. -/
theorem C3_counterexample :
    (((New [WithMaxSize 1]).EnqueueAll [cMsg "a", cMsg "b"]).poll "" 10).1
        ≠ [cMsg "a", cMsg "b"]
    ∧ (((New [WithMaxSize 1]).EnqueueAll [cMsg "a", cMsg "b"]).poll "" 10).1
        = [cMsg "b"] := by
  constructor <;> decide

/-- C3 (amended): FIFO order. For any sequence of `N ≤ capacity` Enqueue calls
starting from an empty queue followed by one unfiltered drain with
`limit ≥ N`, the returned sequence equals the enqueue order; and in general
every drain result is an order-preserving subsequence of the live entries
(oldest first), so returned entries are in increasing age order. -/
theorem C3_fifo :
    (∀ (C : Nat) (L : List QueuedMessage) (limit : Int), 0 < C → L.length ≤ C →
      (L.length : Int) ≤ limit →
      (((New [WithMaxSize (C : Int)]).EnqueueAll L).poll "" limit).1 = L)
    ∧ (∀ (q : Queue) (f : String) (limit : Int), q.Inv →
      ((q.poll f limit).1).Sublist q.live) := by
  constructor
  · intro C L limit hC hlen hlim
    obtain ⟨h1, h2, h3⟩ := EnqueueAll_spec L (New [WithMaxSize (C : Int)]) (New_inv C hC)
    have hlive : ((New [WithMaxSize (C : Int)]).EnqueueAll L).live = L := by
      rw [h1, New_live C hC, List.nil_append, New_withMaxSize_eq C hC]
      dsimp only
      rw [show 0 + L.length - C = 0 from by omega, List.drop_zero]
    have hcount : ((New [WithMaxSize (C : Int)]).EnqueueAll L).count = L.length := by
      rw [← live_length, hlive]
    by_cases h0 : ((New [WithMaxSize (C : Int)]).EnqueueAll L).count = 0
    · rw [poll_eq_zero _ _ _ h0]
      rw [hcount] at h0
      exact (List.length_eq_zero.mp h0).symm
    · obtain ⟨ho, _, _, _, _⟩ := poll_unfiltered_spec _ limit h3 h0
      rw [ho, hlive]
      have hfn : ((New [WithMaxSize (C : Int)]).EnqueueAll L).fastN limit
          = ((New [WithMaxSize (C : Int)]).EnqueueAll L).count := by
        unfold Queue.fastN
        rw [if_neg (fun h => by rw [hcount] at h; omega)]
      rw [hfn, hcount, List.take_length]
  · intro q f limit hinv
    exact poll_out_sublist q f limit hinv

theorem C3_witness :
    ((((New [WithMaxSize 3]).EnqueueAll [cMsg "p", cMsg "q"]).poll "" 5).1
        = [cMsg "p", cMsg "q"])
    ∧ ((((New [WithMaxSize 2]).poll "x" 7).1).Sublist (New [WithMaxSize 2]).live) :=
  ⟨C3_fifo.1 3 [cMsg "p", cMsg "q"] 5 (by decide) (by decide) (by decide),
   C3_fifo.2 (New [WithMaxSize 2]) "x" 7 (by decide)⟩

/-- C7: structural invariant. `count ≤ capacity` always holds (`0 ≤ count` is
inherent in the `Nat` representation), the backing buffer has length
`capacity`, and the live entries occupy exactly the window
`head, …, head+count-1 (mod capacity)` — every slot outside the window holds
the zero value. Construction establishes the invariant and `Enqueue` and the
drain (`poll`, both its unfiltered and filtered paths, covering every
`channelFilter`) preserve it; `Len` reads `count` without modifying any state,
so it preserves the invariant trivially. -/
theorem C7_invariant :
    (∀ (C : Nat), 0 < C → (New [WithMaxSize (C : Int)]).Inv)
    ∧ (∀ (q : Queue) (m : QueuedMessage), q.Inv → (q.Enqueue m).Inv)
    ∧ (∀ (q : Queue) (f : String) (L : Int), q.Inv → ((q.poll f L).2).Inv) :=
  ⟨New_inv, fun q m h => (Enqueue_spec q m h).2.2.2, poll_inv⟩

theorem C7_witness :
    (New [WithMaxSize 2]).Inv
    ∧ ((New [WithMaxSize 2]).Enqueue (cMsg "a")).Inv
    ∧ (((New [WithMaxSize 2]).poll "" 1).2).Inv :=
  ⟨C7_invariant.1 2 (by decide),
   C7_invariant.2.1 (New [WithMaxSize 2]) (cMsg "a") (by decide),
   C7_invariant.2.2 (New [WithMaxSize 2]) "" 1 (by decide)⟩

/-- C8: limit semantics. A drain with `limit > 0` returns exactly
`min limit (number of currently qualifying entries)` entries, and a drain with
`limit ≤ 0` returns all currently qualifying entries (an entry qualifies when
the filter is empty or its `ChannelID`/`ChannelName` equals the filter). -/
theorem C8_limit_semantics (q : Queue) (f : String) (L : Int) (hinv : q.Inv) :
    (0 < L → ((q.poll f L).1).length
        = min L.toNat ((q.live.filter (matchesFilter f)).length))
    ∧ (L ≤ 0 → ((q.poll f L).1).length = (q.live.filter (matchesFilter f)).length) := by
  by_cases h0 : q.count = 0
  · have hl : q.live = [] := by
      rw [← List.length_eq_zero, live_length]
      exact h0
    rw [poll_eq_zero _ _ _ h0, hl]
    constructor <;> intro <;> simp
  · by_cases hf : f = ""
    · subst hf
      obtain ⟨ho, _, _, _, _⟩ := poll_unfiltered_spec q L hinv h0
      rw [ho, matchesFilter_empty, List.filter_true, List.length_take, live_length]
      constructor
      · intro hL
        unfold Queue.fastN
        split <;> omega
      · intro hL
        unfold Queue.fastN
        split <;> omega
    · obtain ⟨ho, _, _, _, _, _, _⟩ := poll_filtered_spec q f L hinv h0 hf
      rw [ho, matchesFilter_of_ne hf]
      constructor
      · intro hL
        rw [splitDrain_out_of_pos f L hL q.live [] [], List.nil_append]
        simp [List.length_take]
      · intro hL
        rw [splitDrain_out_of_nonpos f L hL q.live [] [], List.nil_append]


/-- C8 witness. -/
theorem C8_witness :
    ((((New [WithMaxSize 3]).EnqueueAll [cMsg "a", cMsg "b"]).poll "" 1).1).length
      = min (Int.toNat 1)
          (((((New [WithMaxSize 3]).EnqueueAll [cMsg "a", cMsg "b"])).live.filter
            (matchesFilter "")).length) :=
  (C8_limit_semantics ((New [WithMaxSize 3]).EnqueueAll [cMsg "a", cMsg "b"]) "" 1
    (by decide)).1 (by decide)

/-- C2 counterexample: after a fast-path drain empties the store, `head` is 1;
a subsequent non-empty-filter drain on the (empty) store returns early and
leaves `head` at 1, so "the backing array is rewritten … and head is reset to
0" does not hold for every queue state. -/
theorem C2_counterexample :
    ((((New [WithMaxSize 2]).EnqueueAll [cMsg "a"]).poll "" 10).2).count = 0
    ∧ (((((New [WithMaxSize 2]).EnqueueAll [cMsg "a"]).poll "" 10).2.poll
        "x" 5).2).head ≠ 0 := by
  constructor <;> decide

/-- C2 (amended): filtered-drain postcondition for every queue state holding at
least one live entry (on an empty store the drain returns early, leaving the
state — including `head` — untouched). Scanned oldest to newest, an entry
qualifies exactly when its `ChannelID` or `ChannelName` equals the non-empty
filter; the collected entries are the first `min(limit, all)` qualifying ones
oldest-first (all of them when `limit ≤ 0`); every other entry is kept in its
original relative order (the new live sequence is a subsequence of the old and,
together with the collected entries, accounts for every occurrence); the
backing buffer is rewritten compacted from index 0 with only the kept entries
(zero values after them); and `head` is reset to 0. -/
theorem C2_filtered_drain (q : Queue) (f : String) (L : Int) (hinv : q.Inv)
    (hf : f ≠ "") (hne : q.count ≠ 0) :
    (q.poll f L).1 = (if L ≤ 0 then q.live.filter (matchesFilter f)
      else (q.live.filter (matchesFilter f)).take L.toNat)
    ∧ ((q.poll f L).2.live).Sublist q.live
    ∧ (∀ x, ((q.poll f L).1).count x + ((q.poll f L).2.live).count x
        = q.live.count x)
    ∧ (q.poll f L).2.head = 0
    ∧ (q.poll f L).2.count = ((q.poll f L).2.live).length
    ∧ (q.poll f L).2.buf = (q.poll f L).2.live
        ++ List.replicate (q.maxSize - ((q.poll f L).2.live).length) default := by
  obtain ⟨h1, h2, h3, h4, h5, h6, h7⟩ := poll_filtered_spec q f L hinv hne hf
  rw [matchesFilter_of_ne hf]
  refine ⟨?_, ?_, fun x => poll_conserve q f L hinv x, h3, ?_, ?_⟩
  · rw [h1]
    by_cases hL : L ≤ 0
    · rw [if_pos hL, splitDrain_out_of_nonpos f L hL q.live [] [], List.nil_append]
    · rw [if_neg hL, splitDrain_out_of_pos f L (by omega) q.live [] [],
        List.nil_append]
      simp
  · rw [h2]
    obtain ⟨k2, hk1, hk2⟩ := splitDrain_kept_suffix f L q.live [] []
    rw [hk1, List.nil_append]
    exact hk2
  · rw [h4, h2]
  · rw [h6, h2]

/-- C2 witness. -/
theorem C2_witness :
    ((((New [WithMaxSize 5]).EnqueueAll
        [chMsg "a" "a1", chMsg "b" "b1"]).poll "a" 10).2).head = 0 :=
  (C2_filtered_drain
    ((New [WithMaxSize 5]).EnqueueAll [chMsg "a" "a1", chMsg "b" "b1"])
    "a" 10 (by decide) (by decide) (by decide)).2.2.2.1

/-- C5: filter leaves non-matching entries. With a non-empty filter and a limit
that imposes no cap (`≤ 0`) or is at least the number of matching entries, the
drain returns exactly the matching live entries in order, the new live sequence
is exactly the non-matching entries in order, and a subsequent unfiltered
uncapped drain returns them. Concretely: enqueue on channels "a","b","a"
(contents "a1","b1","a2"); a drain with filter "a" and limit 10 returns
["a1","a2"] and `Len` then reports 1. -/
theorem C5_filter_frame :
    (∀ (q : Queue) (f : String) (L : Int), q.Inv → f ≠ "" →
      (L ≤ 0 ∨ ((q.live.filter (matchesFilter f)).length : Int) ≤ L) →
      (q.poll f L).1 = q.live.filter (matchesFilter f)
      ∧ (q.poll f L).2.live = q.live.filter (fun m => ! matchesFilter f m)
      ∧ (((q.poll f L).2).poll "" 0).1
          = q.live.filter (fun m => ! matchesFilter f m))
    ∧ ((((New [WithMaxSize 10]).EnqueueAll
          [chMsg "a" "a1", chMsg "b" "b1", chMsg "a" "a2"]).poll "a" 10).1
        = [chMsg "a" "a1", chMsg "a" "a2"]
      ∧ ((((New [WithMaxSize 10]).EnqueueAll
          [chMsg "a" "a1", chMsg "b" "b1", chMsg "a" "a2"]).poll "a" 10).2).Len
          = 1) := by
  refine ⟨?_, by decide, by decide⟩
  intro q f L hinv hf hgen
  rw [matchesFilter_of_ne hf] at hgen ⊢
  by_cases h0 : q.count = 0
  · have hl : q.live = [] := by
      rw [← List.length_eq_zero, live_length]
      exact h0
    rw [poll_eq_zero _ _ _ h0]
    refine ⟨by simp [hl], by simp [hl], ?_⟩
    show (q.poll "" 0).1 = _
    rw [poll_eq_zero _ _ _ h0]
    simp [hl]
  · obtain ⟨h1, h2, h3, h4, h5, h6, h7⟩ := poll_filtered_spec q f L hinv h0 hf
    have hkept : (splitDrain f L q.live [] []).2
        = q.live.filter (fun m => ! chanMatch f m) := by
      by_cases hL : L ≤ 0
      · rw [splitDrain_kept_of_nonpos f L hL q.live [] [], List.nil_append]
      · rcases hgen with hg | hg
        · exact absurd hg hL
        · rw [splitDrain_kept_of_le f L (by omega) q.live [] [] (by simp; omega),
            List.nil_append]
    have hout : (q.poll f L).1 = q.live.filter (chanMatch f) := by
      rw [h1]
      by_cases hL : L ≤ 0
      · rw [splitDrain_out_of_nonpos f L hL q.live [] [], List.nil_append]
      · rcases hgen with hg | hg
        · exact absurd hg hL
        · rw [splitDrain_out_of_pos f L (by omega) q.live [] [], List.nil_append,
            show L.toNat - ([] : List QueuedMessage).length = L.toNat from by simp]
          exact List.take_of_length_le (by omega)
    refine ⟨hout, by rw [h2, hkept], ?_⟩
    by_cases h0' : (q.poll f L).2.count = 0
    · have hl2 : (q.poll f L).2.live = [] := by
        rw [← List.length_eq_zero, live_length]
        exact h0'
      rw [poll_eq_zero _ _ _ h0']
      show ([] : List QueuedMessage) = _
      rw [← hkept, ← h2]
      exact hl2.symm
    · obtain ⟨ho2, _, _, _, _⟩ := poll_unfiltered_spec _ 0 h7 h0'
      rw [ho2]
      have hfn : ((q.poll f L).2).fastN 0 = ((q.poll f L).2).count := by
        unfold Queue.fastN
        rw [if_neg (fun h => absurd h.1 (by decide))]
      rw [hfn, ← live_length, List.take_length, h2, hkept]

/-- C5 witness. -/
theorem C5_witness :
    (((New [WithMaxSize 4]).EnqueueAll
        [chMsg "a" "a1", chMsg "b" "b1"]).poll "a" 0).1
      = ((New [WithMaxSize 4]).EnqueueAll
          [chMsg "a" "a1", chMsg "b" "b1"]).live.filter (matchesFilter "a") :=
  (C5_filter_frame.1
    ((New [WithMaxSize 4]).EnqueueAll [chMsg "a" "a1", chMsg "b" "b1"])
    "a" 0 (by decide) (by decide) (Or.inl (by decide))).1


/-- C4 counterexample: with capacity 1, enqueue two distinct entries and fully
drain the store; the evicted first entry appears in no Poll result, so the
union of all results over the fully drained store does not contain each of the
M = 2 enqueued entries exactly once. -/
theorem C4_counterexample :
    emitted (cMsg "a")
        (runOps (New [WithMaxSize 1])
          [QOp.enq (cMsg "a"), QOp.enq (cMsg "b"), QOp.drain "" 0]).1 = 0
    ∧ (runOps (New [WithMaxSize 1])
        [QOp.enq (cMsg "a"), QOp.enq (cMsg "b"), QOp.drain "" 0]).2.count = 0
    ∧ (enqueuedOf [QOp.enq (cMsg "a"), QOp.enq (cMsg "b"), QOp.drain "" 0]).count
        (cMsg "a") = 1 := by
  refine ⟨by decide, by decide, by decide⟩

/-- C4 (amended): at-most-once delivery. For any sequence of Enqueue and drain
operations run sequentially from an empty queue of positive capacity, an entry
enqueued at most once appears at most once across all drain results (so a later
drain never returns an entry a prior one already returned); and provided no
entry is evicted by overflow (total number of enqueues ≤ capacity), once the
store is fully drained every entry appears across the results exactly as often
as it was enqueued — for M distinct entries, exactly once each. -/
theorem C4_at_most_once :
    (∀ (C : Nat) (ops : List QOp) (x : QueuedMessage), 0 < C →
      (enqueuedOf ops).count x ≤ 1 →
      emitted x (runOps (New [WithMaxSize (C : Int)]) ops).1 ≤ 1)
    ∧ (∀ (C : Nat) (ops : List QOp) (x : QueuedMessage), 0 < C →
      (enqueuedOf ops).length ≤ C →
      (runOps (New [WithMaxSize (C : Int)]) ops).2.count = 0 →
      emitted x (runOps (New [WithMaxSize (C : Int)]) ops).1
        = (enqueuedOf ops).count x) := by
  constructor
  · intro C ops x hC hdist
    have h := runOps_le ops (New [WithMaxSize (C : Int)]) (New_inv C hC) x
    rw [New_live C hC] at h
    simp at h
    omega
  · intro C ops x hC hcap hdrained
    have hcap2 : (New [WithMaxSize (C : Int)]).count + (enqueuedOf ops).length
        ≤ (New [WithMaxSize (C : Int)]).maxSize := by
      rw [New_withMaxSize_eq C hC]
      dsimp only
      omega
    have h := runOps_eq ops (New [WithMaxSize (C : Int)]) (New_inv C hC) hcap2 x
    rw [New_live C hC] at h
    have hlv : (runOps (New [WithMaxSize (C : Int)]) ops).2.live = [] := by
      rw [← List.length_eq_zero, live_length]
      exact hdrained
    rw [hlv] at h
    simp at h
    omega

/-- C4 witness. -/
theorem C4_witness :
    emitted (cMsg "a")
        (runOps (New [WithMaxSize 2]) [QOp.enq (cMsg "a"), QOp.drain "" 0]).1 ≤ 1
    ∧ emitted (cMsg "a")
        (runOps (New [WithMaxSize 2]) [QOp.enq (cMsg "a"), QOp.drain "" 0]).1
      = (enqueuedOf [QOp.enq (cMsg "a"), QOp.drain "" 0]).count (cMsg "a") :=
  ⟨C4_at_most_once.1 2 [QOp.enq (cMsg "a"), QOp.drain "" 0] (cMsg "a")
      (by decide) (by decide),
   C4_at_most_once.2 2 [QOp.enq (cMsg "a"), QOp.drain "" 0] (cMsg "a")
      (by decide) (by decide) (by decide)⟩

/-- C6 counterexample: a Poll invoked with an already-cancelled context on a
store holding a qualifying entry returns that entry, not the empty result —
the code attempts the immediate drain before ever consulting the cancellation
signal. -/
theorem C6_counterexample :
    (((New [WithMaxSize 3]).EnqueueAll [cMsg "a"]).PollCancelled 10 "").1
        = [cMsg "a"]
    ∧ (((New [WithMaxSize 3]).EnqueueAll [cMsg "a"]).PollCancelled 10 "").1
        ≠ [] := by
  constructor <;> decide

/-- C6 (amended): a Poll call whose cancellation signal has already fired when
the call is made performs the immediate drain and returns its result without
waiting for the configured timeout; in particular it returns the empty result
whenever no live entry qualifies for the filter. -/
theorem C6_cancelled_immediate (q : Queue) (L : Int) (f : String) (hinv : q.Inv)
    (h : ∀ m ∈ q.live, matchesFilter f m = false) :
    (q.PollCancelled L f).1 = [] := by
  have hout : (q.poll f L).1 = [] := by
    by_cases h0 : q.count = 0
    · rw [poll_eq_zero _ _ _ h0]
    · by_cases hf : f = ""
      · exfalso
        have hlne : q.live ≠ [] := by
          intro hl
          apply h0
          rw [← live_length, hl, List.length_nil]
        obtain ⟨m, hm⟩ := List.exists_mem_of_ne_nil q.live hlne
        have hfm := h m hm
        rw [hf] at hfm
        simp [matchesFilter] at hfm
      · have hfn : q.live.filter (chanMatch f) = [] := by
          rw [List.filter_eq_nil_iff]
          intro a ha
          have hfa := h a ha
          rw [matchesFilter_of_ne hf] at hfa
          simp [hfa]
        rw [(poll_filtered_spec q f L hinv h0 hf).1]
        by_cases hL : L ≤ 0
        · rw [splitDrain_out_of_nonpos f L hL q.live [] [], List.nil_append, hfn]
        · rw [splitDrain_out_of_pos f L (by omega) q.live [] [], List.nil_append,
            hfn, List.take_nil]
  simp only [Queue.PollCancelled]
  rw [hout]
  simp

/-- C6 witness. -/
theorem C6_witness :
    (((New [WithMaxSize 3]).EnqueueAll [chMsg "b" "x"]).PollCancelled 10 "a").1
      = [] :=
  C6_cancelled_immediate ((New [WithMaxSize 3]).EnqueueAll [chMsg "b" "x"])
    10 "a" (by decide) (by decide)

/-- C10: empty-result frame. Whenever the internal drain returns the empty
result — and hence whenever the sequential Poll model with a fired cancellation
signal returns empty — the observable sequence of live entries (read oldest to
newest) is unchanged, even though a non-empty-filter drain on a non-empty store
physically rewrites the backing buffer compacted to index 0. -/
theorem C10_empty_result_frame (q : Queue) (f : String) (L : Int) (hinv : q.Inv) :
    ((q.poll f L).1 = [] → (q.poll f L).2.live = q.live)
    ∧ ((q.PollCancelled L f).1 = [] → (q.PollCancelled L f).2.live = q.live) := by
  have hsub : ((q.poll f L).2.live).Sublist q.live := by
    by_cases h0 : q.count = 0
    · rw [poll_eq_zero _ _ _ h0]
    · by_cases hf : f = ""
      · subst hf
        rw [(poll_unfiltered_spec q L hinv h0).2.1]
        exact List.drop_sublist _ _
      · rw [(poll_filtered_spec q f L hinv h0 hf).2.1]
        obtain ⟨k2, hk1, hk2⟩ := splitDrain_kept_suffix f L q.live [] []
        rw [hk1, List.nil_append]
        exact hk2
  have hcore : (q.poll f L).1 = [] → (q.poll f L).2.live = q.live := by
    intro hemp
    have hlen := poll_len q f L hinv
    rw [hemp] at hlen
    simp at hlen
    exact hsub.eq_of_length hlen
  refine ⟨hcore, ?_⟩
  intro hemp2
  by_cases hp : 0 < ((q.poll f L).1).length
  · simp only [Queue.PollCancelled] at hemp2 ⊢
    rw [if_pos hp] at hemp2 ⊢
    exact hcore hemp2
  · simp only [Queue.PollCancelled]
    rw [if_neg hp]
    have hemp : (q.poll f L).1 = [] := by
      rcases hq : (q.poll f L).1 with _ | ⟨a, as⟩
      · rfl
      · rw [hq] at hp
        simp at hp
    exact hcore hemp

/-- C10 witness. -/
theorem C10_witness :
    ((((New [WithMaxSize 3]).EnqueueAll [chMsg "b" "y"]).poll "a" 5).2).live
      = ((New [WithMaxSize 3]).EnqueueAll [chMsg "b" "y"]).live :=
  (C10_empty_result_frame ((New [WithMaxSize 3]).EnqueueAll [chMsg "b" "y"])
    "a" 5 (by decide)).1 (by decide)

end ClaudebotMCP
